import Mathlib

/-!
# Shallow embedding of `md2dir.py`

This file models the core pipeline of `md2dir.py`: extracting fenced code
blocks from a markdown document, parsing an ASCII directory-tree block,
resolving a filename for each content block (first-line comment, preceding
prose context, or an `anonymous-N` fallback), index- and path-based
exclusion filters, and the positional assignment of filenames to blocks.

Text is modelled as `List Char` (Python strings index by code point, so the
two agree).  Python's regular expressions are translated to explicit
recursive matchers whose behaviour coincides with the (deterministic)
backtracking semantics of the patterns used by the program.  Unicode-only
aspects of Python that the program never relies on are modelled for the
ASCII/newline-based documents the tool processes: `str.strip` and friends
strip the six ASCII whitespace characters, `\w` is modelled as ASCII
alphanumeric or underscore, and `str.splitlines` splits on `'\n'`.
-/

set_option autoImplicit false
set_option maxRecDepth 100000

namespace Md2Dir

/-- The backtick character, written via its code point. -/
def backtick : Char := Char.ofNat 96

/-- ASCII whitespace, as recognised by Python's `str.strip` family. -/
def isPySpace (c : Char) : Bool :=
  c = ' ' || c = '\t' || c = '\n' || c = '\r' || c = '\x0b' || c = '\x0c'

/-- Characters matched by the `[\w+-]` class of the fence pattern
(ASCII model of Python's `\w`, plus `+` and `-`). -/
def isWordPlus (c : Char) : Bool :=
  c.isAlphanum || c = '_' || c = '+' || c = '-'

/-- Python `str.lstrip()`. -/
def pyLstrip (l : List Char) : List Char := l.dropWhile isPySpace

/-- Python `str.rstrip()`. -/
def pyRstrip (l : List Char) : List Char := (l.reverse.dropWhile isPySpace).reverse

/-- Python `str.strip()`. -/
def pyStrip (l : List Char) : List Char := pyRstrip (pyLstrip l)

/-- Python `str.split("\n")`: separator split that keeps empty segments
(`"".split("\n") = [""]`). -/
def splitOnNl : List Char → List (List Char)
  | [] => [[]]
  | c :: cs =>
    if c = '\n' then [] :: splitOnNl cs
    else
      match splitOnNl cs with
      | [] => [[c]]
      | l :: ls => (c :: l) :: ls

/-- Python `str.splitlines()` for `'\n'`-terminated text: like splitting on
`'\n'` but without a trailing empty segment, and `[]` for the empty string. -/
def pySplitlines : List Char → List (List Char)
  | [] => []
  | c :: cs =>
    if c = '\n' then [] :: pySplitlines cs
    else
      match pySplitlines cs with
      | [] => [[c]]
      | l :: ls => (c :: l) :: ls

/-- Python `"/".join`. -/
def joinSlash : List (List Char) → List Char
  | [] => []
  | [x] => x
  | x :: y :: ys => x ++ '/' :: joinSlash (y :: ys)

/-! ## Tree Parser (`parse_tree`, lines 103-158 of `md2dir.py`) -/

/-- `re.search(r"── (.+)", line)`: find the leftmost occurrence of the
connector `"── "` that is followed by at least one character, and return
everything after it (the greedy `.+` takes the rest of the line). -/
def findConnector : List Char → Option (List Char)
  | '─' :: '─' :: ' ' :: c :: cs => some (c :: cs)
  | _ :: cs => findConnector cs
  | [] => none

/-- Do the next four characters form an indentation group `"│   "` or
`"    "`?  (`line[i:i+4] in ("│   ", "    ")`; a shorter remainder never
equals a four-character group, matching Python's truncating slice.) -/
def isGroup4 (l : List Char) : Bool :=
  l.take 4 = "│   ".data || l.take 4 = "    ".data

/-- The depth loop of `parse_tree`: scan the line left to right; whenever the
next four characters are an indentation group advance by four and count one
group, otherwise advance by a single character.  (The Python loop runs over
the whole line, not only the part before the connector.)  The fuel argument
only drives structural recursion; each step consumes at least one character,
so `countDepth` below supplies enough fuel for the scan to finish. -/
def countDepthAux : Nat → List Char → Nat
  | 0, _ => 0
  | _, [] => 0
  | fuel + 1, c :: cs =>
    if isGroup4 (c :: cs) then countDepthAux fuel (cs.drop 3) + 1
    else countDepthAux fuel cs

/-- Depth of a tree line: the group count computed by the scanning loop. -/
def countDepth (l : List Char) : Nat := countDepthAux l.length l

/-- The per-line loop of `parse_tree`, carrying the ancestor-name stack. -/
def parseTreeLines : List (List Char) → List (List Char) → List (List Char)
  | [], _ => []
  | line :: rest, stack =>
    let line2 := pyRstrip line
    match findConnector line2 with
    | none => parseTreeLines rest stack
    | some name =>
      let depth := countDepth line2
      let stack2 := stack.take depth
      let path := joinSlash (stack2 ++ [name])
      path :: parseTreeLines rest (if name.contains '.' then stack2 else stack2 ++ [name])

/-- `parse_tree`: strip the input, split into lines, and walk the lines with
an empty ancestor stack. -/
def parse_tree (s : List Char) : List (List Char) :=
  parseTreeLines (splitOnNl (pyStrip s)) []

/-! ## Block Extractor (`parse_markdown_code_blocks`, lines 15-101) -/

/-- A code block is a pair `(language, content)`, as appended by
`code_blocks.append((language, content))`. -/
abbrev CodeBlock := List Char × List Char

/-- One match of the fence pattern: `start` is `match.start()`, `lang` is
group 1 (the raw `[\w+-]*` run) and `content` is group 2. -/
structure RawBlock where
  start : Nat
  lang : List Char
  content : List Char
deriving DecidableEq

/-- Index of the first occurrence of three consecutive backticks, the target
of the lazy `(.*?)` group followed by the closing fence. -/
def findTicksIdx : List Char → Option Nat
  | [] => none
  | c :: cs =>
    if (c :: cs).take 3 = [backtick, backtick, backtick] then some 0
    else (findTicksIdx cs).map (· + 1)

/-- `finditer` of `` r'```([\w+-]*)\n(.*?)```' `` with `re.DOTALL`: at each
position try the opening fence, then the greedy language run (which must be
followed by a newline — no shorter run can be, since `[\w+-]` never matches
`'\n'`), then take the content up to the first closing fence and resume after
it; on failure advance one character.  `fuel` only drives the recursion;
every step consumes at least one character, so `findFences` supplies enough. -/
def scanFences : Nat → Nat → List Char → List RawBlock
  | 0, _, _ => []
  | fuel + 1, pos, s =>
    if s = [] then []
    else if s.take 3 = [backtick, backtick, backtick] then
      let rest := s.drop 3
      let lang := rest.takeWhile isWordPlus
      match rest.drop lang.length with
      | '\n' :: body =>
        match findTicksIdx body with
        | some t =>
          let consumed := 3 + lang.length + 1 + t + 3
          ⟨pos, lang, body.take t⟩ :: scanFences fuel (pos + consumed) (s.drop consumed)
        | none => scanFences fuel (pos + 1) (s.drop 1)
      | _ => scanFences fuel (pos + 1) (s.drop 1)
    else scanFences fuel (pos + 1) (s.drop 1)

/-- All matches of the fence pattern over the document, with positions. -/
def findFences (s : List Char) : List RawBlock := scanFences s.length 0 s

/-- `special_block_pattern.match(match.group(0))` succeeds exactly when the
block's body begins with a literal `'.'` (the greedy `[\w+-]*` must re-match
the language tag, the following character is the newline, and then `\.`
requires the first content character to be a dot). -/
def isSpecialBlock (rb : RawBlock) : Bool := rb.content.take 1 = ['.']

/-- `language = match.group(1).strip() if match.group(1) else "plaintext"`. -/
def langOf (rb : RawBlock) : List Char :=
  match rb.lang with
  | [] => "plaintext".data
  | l => pyStrip l

/-- `content.split('\n', 1)[0].rstrip()`: the block's right-trimmed first
line. -/
def firstLineOf (rb : RawBlock) : List Char :=
  pyRstrip (rb.content.takeWhile (fun c => c != '\n'))

/-- The comment-opener alternation `(?://|#|<!--|/\*|%)` (the alternatives
are mutually exclusive on their first two characters, so ordered matching is
plain prefix testing).  Returns the remainder after the opener. -/
def tryOpener : List Char → Option (List Char)
  | '/' :: '/' :: r => some r
  | '#' :: r => some r
  | '<' :: '!' :: '-' :: '-' :: r => some r
  | '/' :: '*' :: r => some r
  | '%' :: r => some r
  | _ => none

/-- `comment_line_pattern.match(first_line)` for the newline-free lines the
program feeds it: skip leading whitespace (the opener never starts with a
whitespace character, so the greedy `\s*` cannot usefully backtrack), match
an opener, then the `filenames` group is the remainder after the greedy
inner `\s*` — when the remainder is all whitespace the engine gives one
character back so that `.+` can match it. -/
def commentMatch (line : List Char) : Option (List Char) :=
  match tryOpener (line.dropWhile isPySpace) with
  | none => none
  | some rest =>
    match rest.dropWhile isPySpace with
    | c :: cs => some (c :: cs)
    | [] =>
      match rest with
      | [] => none
      | r :: rs => some [(r :: rs).getLastD ' ']

/-- Does a match of `r'\s+or\s+'` start at this position?  The greedy `\s+`
must reach the end of the whitespace run (no shorter prefix is followed by
`'o'`), then `"or"` and at least one more whitespace character follow. -/
def orSepAt (s : List Char) : Bool :=
  match s.takeWhile isPySpace, s.drop (s.takeWhile isPySpace).length with
  | _ :: _, 'o' :: 'r' :: w :: _ => isPySpace w
  | _, _ => false

/-- `re.split(r'\s+or\s+', text, maxsplit=1)[0]`: the prefix before the
leftmost `" or "` separator (the whole string when none occurs). -/
def splitOrFirst : List Char → List Char
  | [] => []
  | c :: cs => if orSepAt (c :: cs) then [] else c :: splitOrFirst cs

/-- `extract_filename_from_line`: leftmost match of `` r'`([^`]+)`:' ``.  At
each backtick, the greedy `[^`]+` runs to the next backtick, which must be
followed by a colon; otherwise the search advances one character. -/
def extract_filename_from_line : List Char → Option (List Char)
  | [] => none
  | c :: cs =>
    if c = backtick then
      let run := cs.takeWhile (fun d => d != backtick)
      if run ≠ [] ∧ (cs.drop run.length).take 2 = [backtick, ':'] then some run
      else extract_filename_from_line cs
    else extract_filename_from_line cs

/-- The preceding-context lookup: take the document text before the block's
opening fence, keep the last three lines, and return the first backticked,
colon-terminated filename scanning nearest line first. -/
def contextFilename (doc : List Char) (start : Nat) : Option (List Char) :=
  let lines := pySplitlines (doc.take start)
  let last3 := lines.drop (lines.length - 3)
  last3.reverse.findSome? extract_filename_from_line

/-- Is the language one of the JavaScript/TypeScript identifiers that get a
`//` filename comment (`language in ['javascript', 'typescript', 'js', 'ts']`)? -/
def isJsLang (lang : List Char) : Bool :=
  lang == "javascript".data || lang == "typescript".data ||
    lang == "js".data || lang == "ts".data

/-- The filename appended to `comments_filenames` for a content block with
all-fences ordinal `idx`: the first-line comment filename (truncated at the
first `" or "` separator and stripped), else the preceding-context filename,
else `f"anonymous-{idx}"`. -/
def resolveName (doc : List Char) (idx : Nat) (rb : RawBlock) : List Char :=
  match commentMatch (firstLineOf rb) with
  | some fns => pyStrip (splitOrFirst fns)
  | none =>
    match contextFilename doc rb.start with
    | some fn => fn
    | none => "anonymous-".data ++ Nat.toDigits 10 idx

/-- The pair appended to `code_blocks` for a content block: the content is
unchanged except in the context branch, which prepends
`f"{comment_prefix} {filename}\n"`. -/
def resolveBlock (doc : List Char) (_idx : Nat) (rb : RawBlock) : CodeBlock :=
  match commentMatch (firstLineOf rb) with
  | some _ => (langOf rb, rb.content)
  | none =>
    match contextFilename doc rb.start with
    | some fn =>
      (langOf rb,
        (if isJsLang (langOf rb) then "//".data else "#".data) ++ ' ' :: (fn ++ '\n' :: rb.content))
    | none => (langOf rb, rb.content)

/-- State built by the extraction loop.  `specialPathsOpt`/`specialIdxOpt`
are `none` until a structure block is seen; the loop overwrites both on each
structure block, so the last one wins. -/
structure PState where
  specialPathsOpt : Option (List (List Char))
  blocks : List CodeBlock
  names : List (List Char)
  specialIdxOpt : Option Nat
deriving DecidableEq

/-- The `for idx, match in enumerate(matches)` loop, written as recursion on
the remaining matches: the head block's contributions are prepended to the
result of processing the rest, and for the overwritten `special_paths` /
`special_block_index` a later structure block (in `rest`) takes priority. -/
def processBlocks (doc : List Char) : Nat → List RawBlock → PState
  | _, [] => ⟨none, [], [], none⟩
  | idx, rb :: rest =>
    let out := processBlocks doc (idx + 1) rest
    if isSpecialBlock rb then
      ⟨some (out.specialPathsOpt.getD (parse_tree rb.content)), out.blocks, out.names,
        some (out.specialIdxOpt.getD idx)⟩
    else
      ⟨out.specialPathsOpt, resolveBlock doc idx rb :: out.blocks,
        resolveName doc idx rb :: out.names, out.specialIdxOpt⟩

/-- The tuple returned by `parse_markdown_code_blocks`. -/
structure ExtractResult where
  specialPaths : List (List Char)
  blocks : List CodeBlock
  names : List (List Char)
  specialIdx : Option Nat
deriving DecidableEq

/-- `parse_markdown_code_blocks`: find every fenced region and run the
classification/resolution loop over them. -/
def parse_markdown_code_blocks (doc : List Char) : ExtractResult :=
  let st := processBlocks doc 0 (findFences doc)
  ⟨st.specialPathsOpt.getD [], st.blocks, st.names, st.specialIdxOpt⟩

/-! ## Exclusion filters and Assignment Builder (lines 202-242) -/

/-- `filter_excluded_paths`: drop paths that exactly match an excluded
string; an empty exclusion list returns the input unchanged. -/
def filter_excluded_paths (paths : List (List Char)) (excludes : List (List Char)) :
    List (List Char) :=
  if excludes = [] then paths
  else paths.filter (fun p => decide (p ∉ excludes))

/-- `filter_excluded_blocks`: drop blocks whose position in the given list is
in `exclude_indices`; an empty exclusion list returns the input unchanged. -/
def filter_excluded_blocks (code_blocks : List CodeBlock) (exclude_indices : List Nat) :
    List CodeBlock :=
  if exclude_indices = [] then code_blocks
  else (code_blocks.enum.filter (fun p => decide (p.1 ∉ exclude_indices))).map Prod.snd

/-- `file_assignments[file_path] = code_block` on a dictionary modelled as an
association list in insertion order: an existing key keeps its position and
gets the new value, a new key is appended. -/
def dictInsert (d : List (List Char × CodeBlock)) (k : List Char) (v : CodeBlock) :
    List (List Char × CodeBlock) :=
  if d.any (fun p => decide (p.1 = k)) then
    d.map (fun p => if p.1 = k then (k, v) else p)
  else d ++ [(k, v)]

/-- Dictionary lookup (`file_assignments[path]` when present): the first
entry with the given key — `dictInsert` keeps keys unique, so "first" is
"the" entry. -/
def lookupAssoc : List (List Char × CodeBlock) → List Char → Option CodeBlock
  | [], _ => none
  | x :: rest, k => if x.1 = k then some x.2 else lookupAssoc rest k

/-- `assign_blocks_to_files`: `zip` the two lists (which truncates to the
shorter one) and store each pair in the dictionary in order. -/
def assign_blocks_to_files (file_paths : List (List Char)) (code_blocks : List CodeBlock) :
    List (List Char × CodeBlock) :=
  (List.zip file_paths code_blocks).foldl (fun d p => dictInsert d p.1 p.2) []

/-! ## The `main` pipeline (lines 244-313), after argument parsing and input
reading (both out of scope). -/

/-- The recognised options, already parsed: `exclude` strings, `exclude_block`
ordinals (the CLI parses them from a comma-separated string, out of scope
here), and the three boolean flags. -/
structure Args where
  write : Bool
  exclude : List (List Char)
  exclude_block : List Nat
  map : Bool
  comments : Bool
deriving DecidableEq

/-- Outcome of a `main` run: `exitError` is `sys.exit(1)` on the count
mismatch; `mapped` carries the assignment dictionary and whether the files
were written (`--write`); `listed` is the no-`--map` listing of the filtered
blocks.  `write_files` is only ever reached through `mapped`. -/
inductive MainResult where
  | exitError : MainResult
  | mapped : List (List Char × CodeBlock) → Bool → MainResult
  | listed : List CodeBlock → MainResult
deriving DecidableEq

/-- The exclusion indices `main` builds: the user-supplied ordinals, with the
structure block's index appended when one was found. -/
def mainExcludeIndices (doc : List Char) (args : Args) : List Nat :=
  args.exclude_block ++
    (match (parse_markdown_code_blocks doc).specialIdx with
     | some i => [i]
     | none => [])

/-- The content-block list after `main`'s index-based exclusion. -/
def mainBlocks (doc : List Char) (args : Args) : List CodeBlock :=
  filter_excluded_blocks (parse_markdown_code_blocks doc).blocks (mainExcludeIndices doc args)

/-- The filename list `main` selects (`--comments` picks the comment-derived
names, otherwise the structure paths) after path-based exclusion. -/
def mainSelected (doc : List Char) (args : Args) : List (List Char) :=
  filter_excluded_paths
    (if args.comments then (parse_markdown_code_blocks doc).names
     else (parse_markdown_code_blocks doc).specialPaths)
    args.exclude

/-- The `main` pipeline after reading the document. -/
def main_run (doc : List Char) (args : Args) : MainResult :=
  if args.map then
    if (mainSelected doc args).length ≠ (mainBlocks doc args).length then .exitError
    else .mapped (assign_blocks_to_files (mainSelected doc args) (mainBlocks doc args)) args.write
  else .listed (mainBlocks doc args)

/-! ## Derived notions and concrete documents used in the theorems -/

/-- The position a content block at all-fences index `i` occupies in the
content-block list: the number of non-structure blocks among the first `i`
fenced blocks. -/
def countContent (rbs : List RawBlock) (i : Nat) : Nat :=
  ((rbs.take i).filter (fun rb => !isSpecialBlock rb)).length

/-- The value paired with the last occurrence of key `p` in a pair list. -/
def lastVal : List (List Char × CodeBlock) → List Char → Option CodeBlock
  | [], _ => none
  | x :: rest, p =>
    match lastVal rest p with
    | some w => some w
    | none => if x.1 = p then some x.2 else none

/-- A document whose first fenced block is a structure block and whose only
content block follows it. -/
def docC1 : List Char := "```\n.\n├── a.txt\n```\n```python\nx = 1\n```".data

/-- Default arguments with `--map` set: no user exclusions. -/
def argsC1 : Args := ⟨false, [], [], true, false⟩

/-- A structure block followed by one anonymous content block. -/
def docC4 : List Char := "```\n.\n├── a\n```\n```\nx\n```".data

/-- A block with both a preceding backticked context filename and a
first-line comment filename. -/
def docC5 : List Char := "Create `actual.py`:\n```python\n# different.py\nprint(1)\n```".data

/-- A block resolved only through the preceding backticked context line. -/
def docC7 : List Char := "Create `src/main.py`:\n```python\nprint(1)\n```".data

/-! ## Anchors: the embedding reproduces the expectations of
`test_md2dir.py` -/

/-- `test_parse_special_structure`: the sample tree parses to the expected
path list. -/
theorem anchor_parse_special_structure :
    parse_tree ".\n├── src\n│   ├── main.py\n│   └── utils\n│       └── helpers.py\n└── README.md".data
      = ["src".data, "src/main.py".data, "src/utils".data, "src/utils/helpers.py".data,
         "README.md".data] := by decide

/-- `test_extract_filename_from_line`: representative cases. -/
theorem anchor_extract_filename :
    extract_filename_from_line "Here is `file.txt`:".data = some "file.txt".data ∧
    extract_filename_from_line "No filename here".data = none ∧
    extract_filename_from_line "Multiple `file1.txt`: and `file2.txt`:".data
      = some "file1.txt".data := by decide

/-- `test_comment_based_filenames`: three comment-opened blocks. -/
theorem anchor_comment_based_filenames :
    (parse_markdown_code_blocks
      "\n```python\n# app.py\ndef main():\n    pass\n```\n\n```javascript\n// script.js\nconsole.log(1);\n```\n\n```python\n# utils/helper.py\ndef help():\n    pass\n```\n".data).names
      = ["app.py".data, "script.js".data, "utils/helper.py".data] := by decide

/-- `test_context_based_filenames` (first block): context filename plus the
prepended comment line. -/
theorem anchor_context_based_filenames :
    (parse_markdown_code_blocks "Create `src/main.py`:\n```python\nprint(1)\n```\n".data).names
        = ["src/main.py".data] ∧
    (parse_markdown_code_blocks "Create `src/main.py`:\n```python\nprint(1)\n```\n".data).blocks
        = [("python".data, "# src/main.py\nprint(1)\n".data)] := by decide

/-- `test_anonymous_fallback`: two nameless blocks. -/
theorem anchor_anonymous_fallback :
    (parse_markdown_code_blocks
      "\n```python\nprint(3)\n```\n\n```javascript\nconsole.log(4);\n```\n".data).names
      = ["anonymous-0".data, "anonymous-1".data] := by decide

/-- Structure-block detection: the special block is excluded from the content
list, its paths are parsed and its index recorded. -/
theorem anchor_structure_block :
    parse_markdown_code_blocks "```\n.\n├── a.txt\n```\n```python\nx = 1\n```".data
      = ⟨["a.txt".data], [("python".data, "x = 1\n".data)], ["anonymous-1".data], some 0⟩ := by
  decide

/-! ## Helper lemmas -/

theorem processBlocks_len (doc : List Char) (rbs : List RawBlock) :
    ∀ idx, (processBlocks doc idx rbs).blocks.length = (processBlocks doc idx rbs).names.length := by
  induction rbs with
  | nil => intro idx; rfl
  | cons rb rest ih =>
    intro idx
    by_cases h : isSpecialBlock rb
    · simp [processBlocks, h, ih (idx + 1)]
    · simp [processBlocks, h, ih (idx + 1)]

theorem processBlocks_get (doc : List Char) :
    ∀ (rbs : List RawBlock) (idx i : Nat) (rb : RawBlock),
      rbs.get? i = some rb → isSpecialBlock rb = false →
      (processBlocks doc idx rbs).names.get? (countContent rbs i)
          = some (resolveName doc (idx + i) rb) ∧
      (processBlocks doc idx rbs).blocks.get? (countContent rbs i)
          = some (resolveBlock doc (idx + i) rb) := by
  intro rbs
  induction rbs with
  | nil => intro idx i rb hget; simp at hget
  | cons hd tl ih =>
    intro idx i rb hget hsp
    cases i with
    | zero =>
      simp only [List.get?_cons_zero, Option.some_inj] at hget
      subst hget
      simp [processBlocks, hsp, countContent]
    | succ i =>
      simp only [List.get?_cons_succ] at hget
      have harith : idx + 1 + i = idx + (i + 1) := by omega
      by_cases h : isSpecialBlock hd
      · have hcnt : countContent (hd :: tl) (i + 1) = countContent tl i := by
          simp [countContent, h]
        rw [hcnt]
        have := ih (idx + 1) i rb hget hsp
        rw [harith] at this
        simpa [processBlocks, h] using this
      · have hcnt : countContent (hd :: tl) (i + 1) = countContent tl i + 1 := by
          simp [countContent, h, Nat.add_comm]
        rw [hcnt]
        have := ih (idx + 1) i rb hget hsp
        rw [harith] at this
        simpa [processBlocks, h] using this

theorem lookup_map_update_ne (d : List (List Char × CodeBlock)) (k : List Char) (v : CodeBlock)
    (p : List Char) (hp : p ≠ k) :
    lookupAssoc (d.map (fun q => if q.1 = k then (k, v) else q)) p = lookupAssoc d p := by
  induction d with
  | nil => rfl
  | cons a d ih =>
    rw [List.map_cons]
    by_cases ha : a.1 = k
    · rw [if_pos ha]
      simp only [lookupAssoc]
      rw [if_neg (fun h => hp h.symm), if_neg (fun h => hp ((ha ▸ h : k = p)).symm)]
      exact ih
    · rw [if_neg ha]
      simp only [lookupAssoc]
      by_cases hap : a.1 = p
      · rw [if_pos hap, if_pos hap]
      · rw [if_neg hap, if_neg hap]
        exact ih

theorem lookup_map_update_eq (d : List (List Char × CodeBlock)) (k : List Char) (v : CodeBlock)
    (hk : d.any (fun q => decide (q.1 = k)) = true) :
    lookupAssoc (d.map (fun q => if q.1 = k then (k, v) else q)) k = some v := by
  induction d with
  | nil => simp at hk
  | cons a d ih =>
    rw [List.map_cons]
    by_cases ha : a.1 = k
    · rw [if_pos ha]
      simp [lookupAssoc]
    · rw [if_neg ha]
      simp only [lookupAssoc]
      rw [if_neg ha]
      simp only [List.any_cons, Bool.or_eq_true, decide_eq_true_eq] at hk
      rcases hk with hk | hk
      · exact absurd hk ha
      · exact ih hk

theorem lookup_none_of_not_any (d : List (List Char × CodeBlock)) (k : List Char)
    (hk : d.any (fun q => decide (q.1 = k)) = false) :
    lookupAssoc d k = none := by
  induction d with
  | nil => rfl
  | cons a d ih =>
    simp only [List.any_cons, Bool.or_eq_false_iff, decide_eq_false_iff_not] at hk
    simp only [lookupAssoc]
    rw [if_neg hk.1]
    exact ih (by simpa using hk.2)

theorem lookup_append_single (d : List (List Char × CodeBlock)) (k : List Char) (v : CodeBlock)
    (p : List Char) :
    lookupAssoc (d ++ [(k, v)]) p
      = match lookupAssoc d p with
        | some w => some w
        | none => if p = k then some v else none := by
  induction d with
  | nil =>
    simp only [List.nil_append, lookupAssoc]
    by_cases h : k = p
    · subst h; simp
    · rw [if_neg h, if_neg (fun hh => h hh.symm)]
  | cons a d ih =>
    rw [List.cons_append]
    simp only [lookupAssoc]
    by_cases hap : a.1 = p
    · rw [if_pos hap, if_pos hap]
    · rw [if_neg hap, if_neg hap]
      exact ih

theorem lookup_dictInsert (d : List (List Char × CodeBlock)) (k : List Char) (v : CodeBlock)
    (p : List Char) :
    lookupAssoc (dictInsert d k v) p = if p = k then some v else lookupAssoc d p := by
  by_cases hany : d.any (fun q => decide (q.1 = k)) = true
  · rw [dictInsert, if_pos hany]
    by_cases hp : p = k
    · subst hp; rw [if_pos rfl]; exact lookup_map_update_eq d p v hany
    · rw [if_neg hp]; exact lookup_map_update_ne d k v p hp
  · rw [dictInsert, if_neg hany, lookup_append_single]
    by_cases hp : p = k
    · subst hp
      rw [lookup_none_of_not_any d p (Bool.eq_false_iff.mpr hany)]
    · cases h : lookupAssoc d p <;> simp [h, hp]

theorem lookup_foldl (l : List (List Char × CodeBlock)) (d : List (List Char × CodeBlock))
    (p : List Char) :
    lookupAssoc (l.foldl (fun acc q => dictInsert acc q.1 q.2) d) p
      = match lastVal l p with
        | some w => some w
        | none => lookupAssoc d p := by
  induction l generalizing d with
  | nil => simp [lastVal]
  | cons a l ih =>
    rw [List.foldl_cons, ih]
    simp only [lastVal]
    cases h : lastVal l p with
    | some w => rfl
    | none =>
      rw [lookup_dictInsert]
      by_cases ha : a.1 = p
      · rw [if_pos ha, if_pos ha.symm]
      · rw [if_neg ha, if_neg (fun hh => ha hh.symm)]

theorem lastVal_zip_none (file_paths : List (List Char)) (code_blocks : List CodeBlock)
    (p : List Char)
    (h : ∀ k, k < file_paths.length → file_paths.get? k ≠ some p) :
    lastVal (file_paths.zip code_blocks) p = none := by
  induction file_paths generalizing code_blocks with
  | nil => simp [lastVal]
  | cons f fps ih =>
    cases code_blocks with
    | nil => simp [lastVal]
    | cons c cbs =>
      have hf : f ≠ p := fun hfp => h 0 (by simp) (by simp [hfp])
      have htail := ih cbs (fun k hk => by
        have := h (k + 1) (by simpa using Nat.succ_lt_succ hk)
        simpa using this)
      rw [List.zip_cons_cons]
      simp only [lastVal, htail]
      rw [if_neg hf]

theorem lastVal_zip_get (file_paths : List (List Char)) (code_blocks : List CodeBlock)
    (p : List Char) (j : Nat)
    (hlen : file_paths.length = code_blocks.length)
    (hj : file_paths.get? j = some p)
    (hlast : ∀ k, j < k → k < file_paths.length → file_paths.get? k ≠ some p) :
    lastVal (file_paths.zip code_blocks) p = code_blocks.get? j := by
  induction file_paths generalizing code_blocks j with
  | nil => simp at hj
  | cons f fps ih =>
    cases code_blocks with
    | nil => simp at hlen
    | cons c cbs =>
      cases j with
      | zero =>
        simp only [List.get?_cons_zero, Option.some_inj] at hj
        have htail : lastVal (fps.zip cbs) p = none := by
          apply lastVal_zip_none
          intro k hk
          have := hlast (k + 1) (by omega) (by simpa using Nat.succ_lt_succ hk)
          simpa using this
        rw [List.zip_cons_cons, List.get?_cons_zero]
        simp only [lastVal, htail]
        rw [if_pos hj]
      | succ j =>
        simp only [List.get?_cons_succ] at hj
        have hlen' : fps.length = cbs.length := by simpa using hlen
        have hlast' : ∀ k, j < k → k < fps.length → fps.get? k ≠ some p := by
          intro k hk hklen
          have := hlast (k + 1) (by omega) (by simpa using Nat.succ_lt_succ hklen)
          simpa using this
        have htail := ih cbs j hlen' hj hlast'
        have hjlt : j < cbs.length := by
          rw [← hlen']
          exact (List.get?_eq_some.mp hj).1
        obtain ⟨w, hw⟩ : ∃ w, cbs.get? j = some w := ⟨cbs.get ⟨j, hjlt⟩, List.get?_eq_get hjlt⟩
        rw [List.zip_cons_cons, List.get?_cons_succ]
        simp only [lastVal, htail, hw]

theorem zip_eq_zip_take {α β : Type} (as : List α) (bs : List β) :
    as.zip bs
      = (as.take (min as.length bs.length)).zip (bs.take (min as.length bs.length)) := by
  induction as generalizing bs with
  | nil => simp
  | cons a as ih =>
    cases bs with
    | nil => simp
    | cons b bs => simp [Nat.succ_min_succ, ih bs]

/-! ## Claims -/

/-- C1: the claim states that for a document with exactly one structure block
and an empty user block-exclusion set, the index-based exclusion step removes
nothing from the content-block list.  On `docC1` the extractor returns one
content block, yet `main`'s filter — fed the structure block's all-fences
ordinal 0 but indexing into the content-block list — removes it, handing an
empty list onward. -/
theorem C1_implicit_exclusion_drops_content_block :
    (parse_markdown_code_blocks docC1).blocks = [("python".data, "x = 1\n".data)] ∧
    (parse_markdown_code_blocks docC1).specialIdx = some 0 ∧
    mainExcludeIndices docC1 argsC1 = [0] ∧
    mainBlocks docC1 argsC1 = [] := by decide

/-- C2: when `--map` is set and the selected filename list and the filtered
code-block list differ in length, `main` exits with a non-zero status and
produces no assignment; conversely an assignment is produced only when the
two lengths are equal. -/
theorem C2_mismatch_fails_closed (doc : List Char) (args : Args) (hm : args.map = true) :
    ((mainSelected doc args).length ≠ (mainBlocks doc args).length →
        main_run doc args = MainResult.exitError) ∧
    (∀ m w, main_run doc args = MainResult.mapped m w →
        (mainSelected doc args).length = (mainBlocks doc args).length) := by
  constructor
  · intro hne
    simp [main_run, hm, hne]
  · intro m w hmw
    by_cases hne : (mainSelected doc args).length = (mainBlocks doc args).length
    · exact hne
    · rw [main_run] at hmw
      simp [hm, hne] at hmw

/-- Witness for C2 at a concrete mismatching input: `docC1` has one structure
path but (after the index filter) zero surviving blocks. -/
theorem C2_witness : main_run docC1 argsC1 = MainResult.exitError :=
  (C2_mismatch_fails_closed docC1 argsC1 rfl).1 (by decide)

/-- C3: the claim states the assigned depth counts only the indentation
groups before the `"── "` connector, and that name characters never
contribute.  On the line `"└── x    y.z"` nothing but `"└"` precedes the
connector, the entry name is `"x    y.z"`, and the scan still assigns depth
1 because of the four consecutive spaces inside the name — so the second
entry is nested under the preceding directory. -/
theorem C3_depth_counts_groups_inside_name :
    countDepth "└── x    y.z".data = 1 ∧
    findConnector (pyRstrip "└── x    y.z".data) = some "x    y.z".data ∧
    parse_tree "└── d\n└── x    y.z".data = ["d".data, "d/x    y.z".data] := by decide

/-- C4: a content block whose first line carries no comment-opener and whose
three preceding lines carry no backticked, colon-terminated filename is named
`anonymous-N`, where `N` is its zero-based ordinal among all fenced blocks
(structure blocks included). -/
theorem C4_anonymous_uses_all_fences_ordinal (doc : List Char) (i : Nat) (rb : RawBlock)
    (hget : (findFences doc).get? i = some rb)
    (hsp : isSpecialBlock rb = false)
    (hcm : commentMatch (firstLineOf rb) = none)
    (hcx : contextFilename doc rb.start = none) :
    (parse_markdown_code_blocks doc).names.get? (countContent (findFences doc) i)
      = some ("anonymous-".data ++ Nat.toDigits 10 i) := by
  have h := (processBlocks_get doc (findFences doc) 0 i rb hget hsp).1
  rw [Nat.zero_add] at h
  have e : (parse_markdown_code_blocks doc).names
      = (processBlocks doc 0 (findFences doc)).names := rfl
  rw [e, h]
  simp [resolveName, hcm, hcx]

/-- Witness for C4: the content block at all-fences index 1 (after the
structure block at index 0) is named `anonymous-1`. -/
theorem C4_witness :
    (parse_markdown_code_blocks docC4).names.get? (countContent (findFences docC4) 1)
      = some ("anonymous-".data ++ Nat.toDigits 10 1) :=
  C4_anonymous_uses_all_fences_ordinal docC4 1 ⟨16, [], "x\n".data⟩
    (by decide) (by decide) (by decide) (by decide)

/-- C5: a content block whose first line matches a comment-opener gets the
comment-derived filename (split at `" or "`, stripped), its content is left
unchanged, and the preceding context is never consulted — the document
(hence any backticked filename in the preceding lines) is arbitrary. -/
theorem C5_comment_precedence (doc : List Char) (i : Nat) (rb : RawBlock) (fns : List Char)
    (hget : (findFences doc).get? i = some rb)
    (hsp : isSpecialBlock rb = false)
    (hcm : commentMatch (firstLineOf rb) = some fns) :
    (parse_markdown_code_blocks doc).names.get? (countContent (findFences doc) i)
        = some (pyStrip (splitOrFirst fns)) ∧
    (parse_markdown_code_blocks doc).blocks.get? (countContent (findFences doc) i)
        = some (langOf rb, rb.content) := by
  have h := processBlocks_get doc (findFences doc) 0 i rb hget hsp
  rw [Nat.zero_add] at h
  constructor
  · have e : (parse_markdown_code_blocks doc).names
        = (processBlocks doc 0 (findFences doc)).names := rfl
    rw [e, h.1]
    simp [resolveName, hcm]
  · have e : (parse_markdown_code_blocks doc).blocks
        = (processBlocks doc 0 (findFences doc)).blocks := rfl
    rw [e, h.2]
    simp [resolveBlock, hcm]

/-- Witness for C5: the comment filename `different.py` wins even though the
preceding line mentions `` `actual.py`: ``. -/
theorem C5_witness :
    (parse_markdown_code_blocks docC5).names.get? (countContent (findFences docC5) 0)
        = some (pyStrip (splitOrFirst "different.py".data)) ∧
    (parse_markdown_code_blocks docC5).blocks.get? (countContent (findFences docC5) 0)
        = some (langOf ⟨20, "python".data, "# different.py\nprint(1)\n".data⟩,
            "# different.py\nprint(1)\n".data) :=
  C5_comment_precedence docC5 0 ⟨20, "python".data, "# different.py\nprint(1)\n".data⟩
    "different.py".data (by decide) (by decide) (by decide)

/-- C7: a content block resolved through the preceding-context lookup is
stored with content equal to a one-line comment naming the resolved filename,
a newline, and the original content; the opener is `//` for
JavaScript/TypeScript language tags and `#` otherwise. -/
theorem C7_context_resolution_prefixes_comment (doc : List Char) (i : Nat) (rb : RawBlock)
    (fn : List Char)
    (hget : (findFences doc).get? i = some rb)
    (hsp : isSpecialBlock rb = false)
    (hcm : commentMatch (firstLineOf rb) = none)
    (hcx : contextFilename doc rb.start = some fn) :
    (parse_markdown_code_blocks doc).names.get? (countContent (findFences doc) i)
        = some fn ∧
    (parse_markdown_code_blocks doc).blocks.get? (countContent (findFences doc) i)
        = some (langOf rb,
            (if isJsLang (langOf rb) then "//".data else "#".data)
              ++ ' ' :: (fn ++ '\n' :: rb.content)) := by
  have h := processBlocks_get doc (findFences doc) 0 i rb hget hsp
  rw [Nat.zero_add] at h
  constructor
  · have e : (parse_markdown_code_blocks doc).names
        = (processBlocks doc 0 (findFences doc)).names := rfl
    rw [e, h.1]
    simp [resolveName, hcm, hcx]
  · have e : (parse_markdown_code_blocks doc).blocks
        = (processBlocks doc 0 (findFences doc)).blocks := rfl
    rw [e, h.2]
    simp [resolveBlock, hcm, hcx]

/-- Witness for C7: the python block gets a `# src/main.py` comment line
prepended. -/
theorem C7_witness :
    (parse_markdown_code_blocks docC7).names.get? (countContent (findFences docC7) 0)
        = some "src/main.py".data ∧
    (parse_markdown_code_blocks docC7).blocks.get? (countContent (findFences docC7) 0)
        = some (langOf ⟨22, "python".data, "print(1)\n".data⟩,
            (if isJsLang (langOf ⟨22, "python".data, "print(1)\n".data⟩) then "//".data
             else "#".data)
              ++ ' ' :: ("src/main.py".data ++ '\n' :: "print(1)\n".data)) :=
  C7_context_resolution_prefixes_comment docC7 0 ⟨22, "python".data, "print(1)\n".data⟩
    "src/main.py".data (by decide) (by decide) (by decide) (by decide)

/-- C6: the extractor returns exactly one comment-derived filename per
content block — the two lists are always the same length. -/
theorem C6_blocks_names_parallel (doc : List Char) :
    (parse_markdown_code_blocks doc).blocks.length
      = (parse_markdown_code_blocks doc).names.length :=
  processBlocks_len doc (findFences doc) 0

/-- C8: on equal-length lists, the assignment maps a path to the code block
paired with its last occurrence; a path occurring once (so its position is
its last occurrence) is mapped to its positionally paired block. -/
theorem C8_assignment_last_wins (file_paths : List (List Char)) (code_blocks : List CodeBlock)
    (p : List Char) (j : Nat)
    (hlen : file_paths.length = code_blocks.length)
    (hj : file_paths.get? j = some p)
    (hlast : ∀ k, j < k → k < file_paths.length → file_paths.get? k ≠ some p) :
    lookupAssoc (assign_blocks_to_files file_paths code_blocks) p = code_blocks.get? j := by
  rw [assign_blocks_to_files, lookup_foldl,
    lastVal_zip_get file_paths code_blocks p j hlen hj hlast]
  have hjlt : j < code_blocks.length := by
    rw [← hlen]
    exact (List.get?_eq_some.mp hj).1
  obtain ⟨w, hw⟩ : ∃ w, code_blocks.get? j = some w := ⟨_, List.get?_eq_get hjlt⟩
  rw [hw]

/-- Witness for C8: with `"a"` at positions 0 and 2, the mapping holds the
block paired with position 2. -/
theorem C8_witness :
    lookupAssoc
      (assign_blocks_to_files ["a".data, "b".data, "a".data]
        [("x".data, "1".data), ("x".data, "2".data), ("x".data, "3".data)])
      "a".data
    = [("x".data, "1".data), ("x".data, "2".data), ("x".data, "3".data)].get? 2 :=
  C8_assignment_last_wins _ _ "a".data 2 (by decide) (by decide)
    (by
      intro k h1 h2
      simp only [List.length_cons, List.length_nil] at h2
      exact absurd h1 (by omega))

/-- C9: index-based block filtering depends only on membership in the
exclusion list — duplicated or reordered entries give the same result. -/
theorem C9_exclusion_membership_only (code_blocks : List CodeBlock) (l1 l2 : List Nat)
    (h : ∀ i, i ∈ l1 ↔ i ∈ l2) :
    filter_excluded_blocks code_blocks l1 = filter_excluded_blocks code_blocks l2 := by
  unfold filter_excluded_blocks
  rcases eq_or_ne l1 ([] : List Nat) with h1 | h1
  · subst h1
    have h2 : l2 = [] := by
      cases l2 with
      | nil => rfl
      | cons a t => exact absurd ((h a).mpr (List.mem_cons_self a t)) (List.not_mem_nil a)
    rw [h2]
  · have h2 : l2 ≠ [] := by
      intro hl2
      subst hl2
      cases l1 with
      | nil => exact h1 rfl
      | cons a t => exact (List.not_mem_nil a) ((h a).mp (List.mem_cons_self a t))
    rw [if_neg h1, if_neg h2]
    congr 1
    apply List.filter_congr
    intro x _
    exact decide_eq_decide.mpr (not_congr (h x.1))

/-- Witness for C9: excluding index 1 twice equals excluding it once. -/
theorem C9_witness :
    filter_excluded_blocks [("a".data, "1".data), ("b".data, "2".data)] [1, 1]
      = filter_excluded_blocks [("a".data, "1".data), ("b".data, "2".data)] [1] :=
  C9_exclusion_membership_only _ [1, 1] [1] (fun i => by simp)

/-- C10: `assign_blocks_to_files` never fails on a length mismatch — it pairs
positionally up to the shorter length and drops the longer list's tail; the
length check lives only in the caller. -/
theorem C10_assign_truncates_to_shorter (file_paths : List (List Char))
    (code_blocks : List CodeBlock) :
    assign_blocks_to_files file_paths code_blocks
      = assign_blocks_to_files
          (file_paths.take (min file_paths.length code_blocks.length))
          (code_blocks.take (min file_paths.length code_blocks.length)) := by
  unfold assign_blocks_to_files
  rw [← zip_eq_zip_take]

end Md2Dir
